import Mathlib

/-!
Shallow embedding of the EMCCD detector simulation, covering
`emccd_detect/rand_em_gain.py` and `emccd_detect/emccd_detect.py`.

Python floats are modelled as real numbers and NumPy 1-D arrays as
`List ℝ` (2-D frames as row-major `List (List ℝ)`).  The global NumPy
random state is modelled by injected draw streams, and the SciPy
special function the code consumes as an external collaborator
(the real part of `lambertw(·, -1)`) by an injected function.
-/

namespace EmccdDetect

noncomputable section

/-- NumPy rounding `np.round` to an integer: round half to even
(IEEE 754 / NumPy tie-breaking), nearest integer otherwise. -/
def npRoundInt (x : ℝ) : ℤ :=
  if Int.fract x = 1/2 then (if ⌊x⌋ % 2 = 0 then ⌊x⌋ else ⌊x⌋ + 1)
  else round x

/-- NumPy rounding `np.round` as a float-to-float map. -/
def npRound (x : ℝ) : ℝ := (npRoundInt x : ℝ)

theorem npRoundInt_intCast (m : ℤ) : npRoundInt (m : ℝ) = m := by
  unfold npRoundInt
  rw [Int.fract_intCast, if_neg (by norm_num), round_intCast]

theorem npRound_intCast (m : ℤ) : npRound (m : ℝ) = (m : ℝ) := by
  unfold npRound
  rw [npRoundInt_intCast]

theorem npRoundInt_bounds (x : ℝ) : ⌊x⌋ ≤ npRoundInt x ∧ npRoundInt x ≤ ⌊x⌋ + 1 := by
  unfold npRoundInt
  split
  · split
    · exact ⟨le_refl _, by omega⟩
    · exact ⟨by omega, le_refl _⟩
  · rw [round_eq]
    constructor
    · exact Int.floor_le_floor (by linarith)
    · have h : x + 1/2 < ((⌊x⌋ + 2 : ℤ) : ℝ) := by
        have := Int.lt_floor_add_one x
        push_cast
        linarith
      have h3 : ⌊x + 1/2⌋ < ⌊x⌋ + 2 := Int.floor_lt.mpr h
      omega

theorem npRoundInt_nonneg {x : ℝ} (hx : 0 ≤ x) : 0 ≤ npRoundInt x := by
  have h := (npRoundInt_bounds x).1
  have : (0:ℤ) ≤ ⌊x⌋ := Int.floor_nonneg.mpr hx
  omega

/-- NumPy cumulative sum `np.cumsum`: entry `i` holds the sum of the
first `i+1` entries of the input. -/
def cumsum (l : List ℝ) : List ℝ :=
  (List.range l.length).map (fun i => (l.take (i+1)).sum)

/-- Insert a value into an ascending-sorted list, keeping it sorted. -/
def insertSorted (x : ℝ) : List ℝ → List ℝ
  | [] => [x]
  | y :: ys => if x ≤ y then x :: y :: ys else y :: insertSorted x ys

/-- Ascending insertion sort. -/
def sortAsc : List ℝ → List ℝ
  | [] => []
  | x :: xs => insertSorted x (sortAsc xs)

/-- Collapse equal adjacent entries of an (ascending-sorted) list. -/
def dedupSorted : List ℝ → List ℝ
  | [] => []
  | [x] => [x]
  | x :: y :: t => if x = y then dedupSorted (y :: t) else x :: dedupSorted (y :: t)

/-- NumPy `np.unique`: the distinct values of the array in ascending order. -/
def npUnique (l : List ℝ) : List ℝ := dedupSorted (sortAsc l)

/-- NumPy `np.where(a == v)[0]`: the indices whose entry equals `v`, ascending. -/
def whereEq (a : List ℝ) (v : ℝ) : List ℕ :=
  (List.range a.length).filter (fun i => decide (a.getD i 0 = v))

/-- NumPy fancy-index assignment `out[inds] = vals`. -/
def scatter (out : List ℝ) (inds : List ℕ) (vals : List ℝ) : List ℝ :=
  (inds.zip vals).foldl (fun acc p => acc.set p.1 p.2) out

/-- NumPy `arr.max()` (0 on the empty array, which NumPy rejects). -/
def npMax : List ℝ → ℝ
  | [] => 0
  | x :: xs => xs.foldl max x

/-- NumPy `arr.min()` (0 on the empty array, which NumPy rejects). -/
def npMin : List ℝ → ℝ
  | [] => 0
  | x :: xs => xs.foldl min x

/-- NumPy `np.arange(0, xmax).astype(float)`. -/
def npArange (xmax : ℝ) : List ℝ := (List.range ⌈xmax⌉₊).map (fun i => (i : ℝ))

/-- Machine epsilon of an IEEE double, `np.finfo(float).eps`. -/
def machineEps : ℝ := (2:ℝ) ^ (-52 : ℤ)

/-- NumPy `np.searchsorted(a, v)` with the default left side: the first
index whose entry is at least `v`, or the length when there is none. -/
def searchsorted (a : List ℝ) (v : ℝ) : ℕ := a.findIdx (fun c => decide (v ≤ c))

/-- The lookup axis built inside `_rand_pdf` for the n > 2 branch:
`np.arange(0, x_max)` with slot 0 replaced by machine epsilon to avoid
taking the logarithm of zero. -/
def xAxisOf (x_max : ℝ) : List ℝ :=
  match npArange x_max with
  | [] => []
  | _ :: t => machineEps :: t

/-- Embeds `_get_cdf(n_in, em_gain, x)`: the approximate CDF of the
Basden 2003 EM-gain probability density, computed in log space
(`gammaln` is the logarithm of the absolute value of the Gamma function),
exponentiated, normalized by the sum, and cumulatively summed. -/
def get_cdf (n_in em_gain : ℝ) (x : List ℝ) : List ℝ :=
  let logpdf := x.map (fun t =>
    (n_in - 1) * Real.log t - t / em_gain - n_in * Real.log em_gain
      - Real.log |Real.Gamma n_in|)
  let pdf := logpdf.map Real.exp
  cumsum (pdf.map (fun p => p / pdf.sum))

/-- One sample of `_rand_pdf(n_in, em_gain, x_max, size)` for the uniform
draw `u`: the n = 1 and n = 2 closed forms, or the CDF lookup for n > 2,
rounded with `np.round`.  `W` is the injected external collaborator
`scipy.special.lambertw(·, -1).real`. -/
def sampleOne (W : ℝ → ℝ) (n_in em_gain x_max u : ℝ) : ℝ :=
  let n_out :=
    if n_in = 1 then -em_gain * Real.log (1 - u)
    else if n_in = 2 then -em_gain * W ((u - 1) / Real.exp 1) - em_gain
    else
      let x_axis := xAxisOf x_max
      let cdf := get_cdf n_in em_gain x_axis
      let lookup := (npMax cdf - npMin cdf) * u + npMin cdf
      x_axis.getD (searchsorted cdf lookup) 0
  npRound n_out

/-- Embeds `_rand_pdf(n_in, em_gain, x_max, size)` with its vector of
uniform draws `np.random.random(size)` injected as the list `us`. -/
def rand_pdf (W : ℝ → ℝ) (n_in em_gain x_max : ℝ) (us : List ℝ) : List ℝ :=
  us.map (sampleOne W n_in em_gain x_max)

/-- The loop of `_apply_gain` over the distinct nonzero input values:
group `j` of positions `np.where(n_in_array == v)[0]` receives fresh
draws `unif j 0, unif j 1, ...` and is overwritten with the sampled
outputs for its value. -/
def applyGainLoop (W : ℝ → ℝ) (unif : ℕ → ℕ → ℝ) (a : List ℝ)
    (em_gain max_out : ℝ) : List ℝ → ℕ → List ℝ → List ℝ
  | [], _, out => out
  | v :: vs, j, out =>
      let inds := whereEq a v
      let us := (List.range inds.length).map (unif j)
      applyGainLoop W unif a em_gain max_out vs (j+1)
        (scatter out inds (rand_pdf W v em_gain max_out us))

/-- Embeds `_apply_gain(n_in_array, em_gain, max_out)`: start from
`np.zeros_like(n_in_array)`, take the distinct strictly positive input
values (`np.unique` then `> 0`), and sample each group in bulk. -/
def apply_gain (W : ℝ → ℝ) (unif : ℕ → ℕ → ℝ) (n_in_array : List ℝ)
    (em_gain max_out : ℝ) : List ℝ :=
  let n_out_array := n_in_array.map (fun _ => (0:ℝ))
  let n_in_unique := (npUnique n_in_array).filter (fun v => decide (0 < v))
  applyGainLoop W unif n_in_array em_gain max_out n_in_unique 0 n_out_array

/-- Per-stage multiplication rate `em_gain**(1/n_elements) - 1` from
`_partial_cic`. -/
def ratePerElement (em_gain : ℝ) (n_elements : ℕ) : ℝ :=
  em_gain ^ ((1 : ℝ) / (n_elements : ℝ)) - 1

/-- The effective gain `_partial_cic` computes for one CIC electron from
its uniform draw `u`: `(1 + rate_per_element) ** np.round(u * (n_elements - 1)).astype(int)`. -/
def cicStageGain (em_gain : ℝ) (n_elements : ℕ) (u : ℝ) : ℝ :=
  (1 + ratePerElement em_gain n_elements) ^ npRoundInt (u * ((n_elements : ℝ) - 1))

/-- The loop of `_partial_cic` over the distinct effective gain values:
group `k` gathers the CIC positions whose gain equals the value, applies
`_apply_gain` to the gathered subarray with that gain (with its own draw
streams `unifP k`), and scatters the result back. -/
def cicLoop (W : ℝ → ℝ) (unifP : ℕ → ℕ → ℕ → ℝ) (max_out : ℝ)
    (cicInds : List ℕ) (pgs : List ℝ) : List ℝ → ℕ → List ℝ → List ℝ
  | [], _, cur => cur
  | pg :: rest, k, cur =>
      let inds := ((cicInds.zip pgs).filter (fun p => decide (p.2 = pg))).map
        (fun p => p.1)
      let sub := inds.map (fun i => cur.getD i 0)
      cicLoop W unifP max_out cicInds pgs rest (k+1)
        (scatter cur inds (apply_gain W (unifP k) sub pg max_out))

/-- Embeds `_partial_cic(n_out_array, n_elements, max_out, gain_cic, em_gain)`:
actualize Poisson CIC counts at the zero positions, draw an entry point
along the register for each nonzero CIC count, compute the effective
gains, and re-apply `_apply_gain` per distinct gain value.  `poisC` is
the stream of Poisson draws with mean `gain_cic`; `unifC` the uniform
draws for the register entry points. -/
def cicCorrect (W : ℝ → ℝ) (poisC : ℕ → ℕ) (unifC : ℕ → ℝ) (unifP : ℕ → ℕ → ℕ → ℝ)
    (n_out_array : List ℝ) (n_elements : ℕ) (max_out gain_cic em_gain : ℝ) :
    List ℝ :=
  let zeroInds := (List.range n_out_array.length).filter
    (fun i => decide (n_out_array.getD i 0 = 0))
  let a1 := scatter n_out_array zeroInds
    ((List.range zeroInds.length).map (fun j => ((poisC j : ℕ) : ℝ)))
  let cicInds := (List.range a1.length).filter
    (fun i => decide (0 < a1.getD i 0) && decide (n_out_array.getD i 0 = 0))
  let pgs := (List.range cicInds.length).map
    (fun j => cicStageGain em_gain n_elements (unifC j))
  cicLoop W unifP max_out cicInds pgs (npUnique pgs) 0 a1

/-- The error conditions observable from `rand_em_gain` and its caller:
the `RandEMGainException` raised for a gain below 1, and the `TypeError`
CPython raises when a call fails to bind a required positional argument. -/
inductive PyError
  | randEMGainException
  | typeErrorMissingArg
  deriving DecidableEq

/-- The injected random draw streams and special-function collaborator
consumed by `rand_em_gain`. -/
structure Oracles where
  lambertw : ℝ → ℝ
  unifA : ℕ → ℕ → ℝ
  poisC : ℕ → ℕ
  unifC : ℕ → ℝ
  unifP : ℕ → ℕ → ℕ → ℝ

/-- Embeds `rand_em_gain(n_in_array, em_gain, max_out, gain_cic=0,
n_elements=604)`: reject a gain below 1 before any sampling, apply the
gain, and run the CIC correction only when `gain_cic` is nonzero. -/
def rand_em_gain (o : Oracles) (n_in_array : List ℝ)
    (em_gain max_out gain_cic : ℝ) (n_elements : ℕ) :
    Except PyError (List ℝ) :=
  if em_gain < 1 then Except.error PyError.randEMGainException
  else
    let n_out_array := apply_gain o.lambertw o.unifA n_in_array em_gain max_out
    Except.ok (if gain_cic ≠ 0 then
        cicCorrect o.lambertw o.poisC o.unifC o.unifP n_out_array n_elements
          max_out gain_cic em_gain
      else n_out_array)

/-- A Python value at the call boundary of `rand_em_gain`: an array or a
scalar. -/
inductive PyVal
  | arr (a : List ℝ)
  | num (x : ℝ)

/-- Positional-argument binding for the Python callable
`rand_em_gain(n_in_array, em_gain, max_out, gain_cic=0, n_elements=604)`.
The defaults fill `gain_cic` and `n_elements` when they are omitted;
CPython rejects any call that does not bind the required positional
parameter `max_out` with a `TypeError` before the function body runs
(this repository only ever calls it with positional arguments). -/
def callRandEmGain (o : Oracles) (args : List PyVal) : Except PyError (List ℝ) :=
  match args with
  | [PyVal.arr a, PyVal.num g, PyVal.num mx] => rand_em_gain o a g mx 0 604
  | [PyVal.arr a, PyVal.num g, PyVal.num mx, PyVal.num gc] =>
      rand_em_gain o a g mx gc 604
  | [PyVal.arr a, PyVal.num g, PyVal.num mx, PyVal.num gc, PyVal.num ne] =>
      rand_em_gain o a g mx gc ⌊ne⌋₊
  | _ => Except.error PyError.typeErrorMissingArg

/-- The injected oracles of the image-area and read-out stages:
per-pixel Poisson draws, standard-normal draws for read noise, and the
cosmic-ray injector.  The field `cosmic` is modelled from the spec:
`emccd_detect.cosmic_hits` is imported by `emccd_detect.py` but its
module is not part of the sources; the spec describes it as an external
collaborator mutating an image-area array given a hit rate, frame time,
pixel pitch, and a saturation cap, so it is kept abstract here. -/
structure FrameOracles where
  poisI : ℕ → ℕ → ℕ
  gaussR : ℕ → ℝ
  cosmic : List (List ℝ) → ℝ → ℝ → ℝ → ℝ → List (List ℝ)

/-- Embeds `image_area(...)`: mean photo-electron map, Poisson
actualization (per-pixel draws `poisI i j`), cosmic hits, and the cap at
the image-area full well. -/
def image_area (fo : FrameOracles) (fluxmap : List (List ℝ))
    (frametime full_well_image dark_current cic qe cr_rate pixel_pitch : ℝ)
    (shot_noise_on : Bool) : List (List ℝ) :=
  let mean_phe_map := fluxmap.map (fun row => row.map (fun x => x * frametime * qe))
  let frame :=
    if shot_noise_on then
      (List.range mean_phe_map.length).map (fun i =>
        (List.range (mean_phe_map.getD i []).length).map (fun j =>
          ((fo.poisI i j : ℕ) : ℝ)))
    else
      (List.range mean_phe_map.length).map (fun i =>
        (List.range (mean_phe_map.getD i []).length).map (fun j =>
          (mean_phe_map.getD i []).getD j 0 + ((fo.poisI i j : ℕ) : ℝ)))
  let frame := fo.cosmic frame cr_rate frametime pixel_pitch full_well_image
  frame.map (fun row => row.map (fun x =>
    if full_well_image < x then full_well_image else x))

/-- Embeds `make_fixed_pattern(serial_frame)`: an all-zero frame. -/
def make_fixed_pattern (serial_frame : List ℝ) : List ℝ :=
  serial_frame.map (fun _ => 0)

/-- Embeds `make_read_noise(serial_frame, read_noise)`: scaled
standard-normal draws, one per position. -/
def make_read_noise (fo : FrameOracles) (read_noise : ℝ) (n : ℕ) : List ℝ :=
  (List.range n).map (fun i => read_noise * fo.gaussR i)

/-- Reshape a flat array back to the row lengths of a template frame
(`serial_frame.reshape(image_frame.shape)`). -/
def reshapeLike : List (List ℝ) → List ℝ → List (List ℝ)
  | [], _ => []
  | row :: rest, flat => flat.take row.length :: reshapeLike rest (flat.drop row.length)

/-- Embeds `serial_register(image_frame, em_gain, full_well_serial,
read_noise, bias)`: flatten row-major, call
`rand_em_gain(serial_frame, em_gain)` — a two-positional-argument call
that omits the required `max_out` — cap at the serial full well, add
fixed pattern, read noise and bias, and reshape. -/
def serial_register (o : Oracles) (fo : FrameOracles)
    (image_frame : List (List ℝ)) (em_gain full_well_serial read_noise bias : ℝ) :
    Except PyError (List (List ℝ)) :=
  let serial_frame := image_frame.join
  match callRandEmGain o [PyVal.arr serial_frame, PyVal.num em_gain] with
  | Except.error e => Except.error e
  | Except.ok sf =>
      let sf := sf.map (fun x => if full_well_serial < x then full_well_serial else x)
      let sf := (sf.zip (make_fixed_pattern sf)).map (fun p => p.1 + p.2)
      let sf := (sf.zip (make_read_noise fo read_noise sf.length)).map
        (fun p => p.1 + p.2 + bias)
      Except.ok (reshapeLike image_frame sf)

/-- Embeds `emccd_detect(fluxmap, frametime, em_gain, ...)`: the image
area stage followed by the serial register stage. -/
def emccd_detect (o : Oracles) (fo : FrameOracles) (fluxmap : List (List ℝ))
    (frametime em_gain full_well_image full_well_serial dark_current cic
     read_noise bias qe cr_rate pixel_pitch : ℝ) (shot_noise_on : Bool) :
    Except PyError (List (List ℝ)) :=
  let image_frame := image_area fo fluxmap frametime full_well_image dark_current
    cic qe cr_rate pixel_pitch shot_noise_on
  serial_register o fo image_frame em_gain full_well_serial read_noise bias

/-- A heap of NumPy array objects, for stating aliasing facts: an array
reference is an index into the heap. -/
structure NpHeap where
  arrays : List (List ℝ)

/-- Heap-level `rand_em_gain`: inside `_apply_gain`,
`np.zeros_like(n_in_array)` allocates a fresh array object which is then
filled and returned; `_partial_cic` mutates that fresh array in place.
The array of the caller at `r_in` is only ever read. -/
def rand_em_gain_heap (o : Oracles) (h : NpHeap) (r_in : ℕ)
    (em_gain max_out gain_cic : ℝ) (n_elements : ℕ) :
    Except PyError (NpHeap × ℕ) :=
  if em_gain < 1 then Except.error PyError.randEMGainException
  else
    let a := h.arrays.getD r_in []
    let r_out := h.arrays.length
    let h1 : NpHeap := ⟨h.arrays ++ [apply_gain o.lambertw o.unifA a em_gain max_out]⟩
    let h2 : NpHeap :=
      if gain_cic ≠ 0 then
        ⟨h1.arrays.set r_out (cicCorrect o.lambertw o.poisC o.unifC o.unifP
          (h1.arrays.getD r_out []) n_elements max_out gain_cic em_gain)⟩
      else h1
    Except.ok (h2, r_out)

/-- A concrete all-zero instantiation of the draw streams, used by the
witnesses. -/
def oracles0 : Oracles :=
  ⟨fun _ => 0, fun _ _ => 0, fun _ => 0, fun _ => 0, fun _ _ _ => 0⟩

/-- A concrete trivial instantiation of the frame oracles, used by the
witnesses. -/
def frameOracles0 : FrameOracles :=
  ⟨fun _ _ => 0, fun _ => 0, fun a _ _ _ _ => a⟩

theorem foldl_set_length (ps : List (ℕ × ℝ)) (out : List ℝ) :
    (ps.foldl (fun acc p => acc.set p.1 p.2) out).length = out.length := by
  induction ps generalizing out with
  | nil => rfl
  | cons p ps ih =>
    rw [List.foldl_cons, ih (out.set p.1 p.2), List.length_set]

theorem scatter_length (out : List ℝ) (inds : List ℕ) (vals : List ℝ) :
    (scatter out inds vals).length = out.length :=
  foldl_set_length (inds.zip vals) out

theorem getD_set_ne (out : List ℝ) (n : ℕ) (a : ℝ) {i : ℕ} (h : n ≠ i) :
    (out.set n a).getD i 0 = out.getD i 0 := by
  rw [List.getD_eq_getElem?_getD, List.getD_eq_getElem?_getD,
    List.getElem?_set_ne h]

theorem foldl_set_getD (ps : List (ℕ × ℝ)) (out : List ℝ) (i : ℕ)
    (h : ∀ p ∈ ps, p.1 ≠ i) :
    (ps.foldl (fun acc p => acc.set p.1 p.2) out).getD i 0 = out.getD i 0 := by
  induction ps generalizing out with
  | nil => rfl
  | cons p ps ih =>
    rw [List.foldl_cons, ih (out.set p.1 p.2)
      (fun q hq => h q (List.mem_cons_of_mem _ hq))]
    exact getD_set_ne out p.1 p.2 (h p (List.mem_cons_self _ _))

theorem scatter_getD_of_not_mem (out : List ℝ) (inds : List ℕ) (vals : List ℝ)
    {i : ℕ} (hi : i ∉ inds) :
    (scatter out inds vals).getD i 0 = out.getD i 0 :=
  foldl_set_getD (inds.zip vals) out i
    (fun p hp hpi => hi (hpi ▸ (List.of_mem_zip hp).1))

theorem mem_whereEq {a : List ℝ} {v : ℝ} {i : ℕ} (h : i ∈ whereEq a v) :
    a.getD i 0 = v := by
  have := List.of_mem_filter h
  simpa using this

theorem applyGainLoop_length (W : ℝ → ℝ) (unif : ℕ → ℕ → ℝ) (a : List ℝ)
    (em_gain max_out : ℝ) (vs : List ℝ) (j : ℕ) (out : List ℝ) :
    (applyGainLoop W unif a em_gain max_out vs j out).length = out.length := by
  induction vs generalizing j out with
  | nil => rfl
  | cons v vs ih =>
    rw [applyGainLoop, ih, scatter_length]

theorem applyGainLoop_getD_untouched (W : ℝ → ℝ) (unif : ℕ → ℕ → ℝ)
    (a : List ℝ) (em_gain max_out : ℝ) (vs : List ℝ) (j : ℕ) (out : List ℝ)
    {i : ℕ} (h : ∀ v ∈ vs, a.getD i 0 ≠ v) :
    (applyGainLoop W unif a em_gain max_out vs j out).getD i 0 = out.getD i 0 := by
  induction vs generalizing j out with
  | nil => rfl
  | cons v vs ih =>
    rw [applyGainLoop, ih _ _ (fun w hw => h w (List.mem_cons_of_mem _ hw)),
      scatter_getD_of_not_mem]
    intro hmem
    exact h v (List.mem_cons_self _ _) (mem_whereEq hmem)

theorem apply_gain_length (W : ℝ → ℝ) (unif : ℕ → ℕ → ℝ) (a : List ℝ)
    (em_gain max_out : ℝ) :
    (apply_gain W unif a em_gain max_out).length = a.length := by
  unfold apply_gain
  rw [applyGainLoop_length, List.length_map]

theorem getD_map_zero (a : List ℝ) (i : ℕ) :
    ((a.map (fun _ => (0:ℝ))).getD i 0) = 0 := by
  rw [List.getD_eq_getElem?_getD, List.getElem?_map]
  cases a[i]? <;> rfl

theorem apply_gain_getD_of_nonpos (W : ℝ → ℝ) (unif : ℕ → ℕ → ℝ) (a : List ℝ)
    (em_gain max_out : ℝ) {i : ℕ} (h : a.getD i 0 ≤ 0) :
    (apply_gain W unif a em_gain max_out).getD i 0 = 0 := by
  unfold apply_gain
  rw [applyGainLoop_getD_untouched, getD_map_zero]
  intro v hv
  have hvpos : 0 < v := by
    have := List.of_mem_filter hv
    simpa using this
  intro hAv
  exact absurd h (not_le.mpr (hAv ▸ hvpos))

/-- C1: the claim states that for every 2-D flux map of non-negative reals,
positive frame time, and em_gain at least 1, `emccd_detect` returns a 2-D
array of the same shape.  In the code as written this never happens:
`serial_register` calls `rand_em_gain(serial_frame, em_gain)` with only two
positional arguments, omitting the required `max_out`, so CPython raises a
`TypeError` on every call.  This theorem evaluates the pipeline at a concrete
valid input and observes the error. -/
theorem emccd_detect_missing_max_out :
    emccd_detect oracles0 frameOracles0 [[0]] 1 1 60000 100000 (28/100000)
      (1/100) 100 0 (9/10) 0 (13/1000000) true =
    Except.error PyError.typeErrorMissingArg := by
  rfl

/-- C3: `rand_em_gain` fails with the `RandEMGainException` condition for
every gain below 1 — before any sampling, for every input array, bound,
CIC rate and register length — and no such error is raised for any gain
at least 1. -/
theorem rand_em_gain_gain_validation (o : Oracles) (a : List ℝ)
    (g mx gc : ℝ) (N : ℕ) :
    (g < 1 → rand_em_gain o a g mx gc N =
      Except.error PyError.randEMGainException) ∧
    (1 ≤ g → ∃ out, rand_em_gain o a g mx gc N = Except.ok out) := by
  constructor
  · intro h
    unfold rand_em_gain
    rw [if_pos h]
  · intro h
    refine ⟨if gc ≠ 0 then
        cicCorrect o.lambertw o.poisC o.unifC o.unifP
          (apply_gain o.lambertw o.unifA a g mx) N mx gc g
      else apply_gain o.lambertw o.unifA a g mx, ?_⟩
    unfold rand_em_gain
    rw [if_neg (not_lt.mpr h)]

theorem rand_em_gain_gain_validation_witness :
    ((1:ℝ)/2 < 1 ∧ rand_em_gain oracles0 [0] (1/2) 1 0 604 =
      Except.error PyError.randEMGainException) ∧
    ((1:ℝ) ≤ 1 ∧ ∃ out, rand_em_gain oracles0 [0] 1 1 0 604 = Except.ok out) :=
  ⟨⟨by norm_num,
      (rand_em_gain_gain_validation oracles0 [0] (1/2) 1 0 604).1 (by norm_num)⟩,
   ⟨le_refl 1,
      (rand_em_gain_gain_validation oracles0 [0] 1 1 0 604).2 (le_refl 1)⟩⟩

/-- C5: for input count 1, gain g, and a fixed uniform draw u in [0,1), the
output of the single-value sampler equals round(-g*log(1-u)) exactly,
deterministically in the injected draw. -/
theorem rand_pdf_n1_closed_form (W : ℝ → ℝ) (g x_max u : ℝ)
    (hg : 1 ≤ g) (h0 : 0 ≤ u) (h1 : u < 1) :
    rand_pdf W 1 g x_max [u] = [npRound (-g * Real.log (1 - u))] := by
  simp [rand_pdf, sampleOne]

theorem rand_pdf_n1_closed_form_witness :
    (1:ℝ) ≤ 2 ∧ (0:ℝ) ≤ 1/2 ∧ (1:ℝ)/2 < 1 ∧
    rand_pdf (fun _ => 0) 1 2 10 [1/2] =
      [npRound (-2 * Real.log (1 - 1/2))] :=
  ⟨by norm_num, by norm_num, by norm_num,
    rand_pdf_n1_closed_form (fun _ => 0) 2 10 (1/2)
      (by norm_num) (by norm_num) (by norm_num)⟩

/-- C6: for input count 2, gain g, and a fixed uniform draw u in [0,1), the
output of the single-value sampler equals round(-g*Re(W₋₁((u-1)/e)) - g), with
the Lambert-W collaborator injected as `W`. -/
theorem rand_pdf_n2_closed_form (W : ℝ → ℝ) (g x_max u : ℝ)
    (hg : 1 ≤ g) (h0 : 0 ≤ u) (h1 : u < 1) :
    rand_pdf W 2 g x_max [u] =
      [npRound (-g * W ((u - 1) / Real.exp 1) - g)] := by
  norm_num [rand_pdf, sampleOne]

theorem rand_pdf_n2_closed_form_witness :
    (1:ℝ) ≤ 2 ∧ (0:ℝ) ≤ 1/2 ∧ (1:ℝ)/2 < 1 ∧
    rand_pdf (fun _ => 0) 2 2 10 [1/2] =
      [npRound (-2 * (fun (_ : ℝ) => (0:ℝ)) ((1/2 - 1) / Real.exp 1) - 2)] :=
  ⟨by norm_num, by norm_num, by norm_num,
    rand_pdf_n2_closed_form (fun _ => 0) 2 10 (1/2)
      (by norm_num) (by norm_num) (by norm_num)⟩

/-- C8: for every input array, gain at least 1, and bound, with CIC
modeling disabled (gain_cic = 0), `rand_em_gain` returns an array of the
same length as the input in which every position holding input count 0
holds exactly 0. -/
theorem rand_em_gain_zero_preservation (o : Oracles) (a : List ℝ)
    (g mx : ℝ) (N : ℕ) (hg : 1 ≤ g) :
    ∃ out, rand_em_gain o a g mx 0 N = Except.ok out ∧
      out.length = a.length ∧
      ∀ i, a.getD i 0 = 0 → out.getD i 0 = 0 := by
  refine ⟨apply_gain o.lambertw o.unifA a g mx, ?_, ?_, ?_⟩
  · unfold rand_em_gain
    rw [if_neg (not_lt.mpr hg)]
    norm_num
  · exact apply_gain_length o.lambertw o.unifA a g mx
  · intro i hi
    exact apply_gain_getD_of_nonpos o.lambertw o.unifA a g mx (le_of_eq hi)

theorem rand_em_gain_zero_preservation_witness :
    (1:ℝ) ≤ 1 ∧
    ∃ out, rand_em_gain oracles0 [0] 1 1 0 604 = Except.ok out ∧
      out.length = ([0] : List ℝ).length ∧
      ∀ i, ([0] : List ℝ).getD i 0 = 0 → out.getD i 0 = 0 :=
  ⟨le_refl 1, rand_em_gain_zero_preservation oracles0 [0] 1 1 604 (le_refl 1)⟩

theorem cicLoop_getD_of_not_mem (W : ℝ → ℝ) (unifP : ℕ → ℕ → ℕ → ℝ)
    (max_out : ℝ) (cicInds : List ℕ) (pgs : List ℝ) (l : List ℝ) (k : ℕ)
    (cur : List ℝ) (i : ℕ) (hi : i ∉ cicInds) :
    (cicLoop W unifP max_out cicInds pgs l k cur).getD i 0 = cur.getD i 0 := by
  induction l generalizing k cur with
  | nil => rfl
  | cons pg rest ih =>
    rw [cicLoop, ih, scatter_getD_of_not_mem]
    intro hmem
    obtain ⟨p, hp, hpi⟩ := List.mem_map.mp hmem
    exact hi (hpi ▸ (List.of_mem_zip (List.mem_of_mem_filter hp)).1)

/-- C9: with a nonzero CIC injection rate, the partial-CIC stage modifies
only positions whose value was exactly zero after the primary gain
application: every position with a nonzero value in `n_out_array` is
returned unchanged.  (Structurally, `cicCorrect` re-enters the batch gain
applicator `apply_gain` only; it never calls itself, so CIC modeling is
not re-triggered.) -/
theorem cic_preserves_nonzero (W : ℝ → ℝ) (poisC : ℕ → ℕ) (unifC : ℕ → ℝ)
    (unifP : ℕ → ℕ → ℕ → ℝ) (n_out : List ℝ) (N : ℕ) (mx gc g : ℝ)
    (i : ℕ) (hi : n_out.getD i 0 ≠ 0) :
    (cicCorrect W poisC unifC unifP n_out N mx gc g).getD i 0 =
      n_out.getD i 0 := by
  have hzero : ∀ (m : ℕ),
      i ∉ (List.range m).filter (fun j => decide (n_out.getD j 0 = 0)) := by
    intro m hmem
    have := List.of_mem_filter hmem
    rw [decide_eq_true_eq] at this
    exact hi this
  have hcic : ∀ (m : ℕ) (a1 : List ℝ),
      i ∉ (List.range m).filter
        (fun j => decide (0 < a1.getD j 0) && decide (n_out.getD j 0 = 0)) := by
    intro m a1 hmem
    have := ((Bool.and_eq_true _ _).mp ((List.mem_filter.mp hmem).2)).2
    rw [decide_eq_true_eq] at this
    exact hi this
  simp only [cicCorrect]
  rw [cicLoop_getD_of_not_mem _ _ _ _ _ _ _ _ _ (hcic _ _),
    scatter_getD_of_not_mem _ _ _ (hzero _)]

theorem cic_preserves_nonzero_witness :
    ([5] : List ℝ).getD 0 0 ≠ 0 ∧
    (cicCorrect oracles0.lambertw oracles0.poisC oracles0.unifC oracles0.unifP
      [5] 604 1 (1/100) 1).getD 0 0 = ([5] : List ℝ).getD 0 0 :=
  ⟨by norm_num,
    cic_preserves_nonzero oracles0.lambertw oracles0.poisC oracles0.unifC
      oracles0.unifP [5] 604 1 (1/100) 1 0 (by norm_num)⟩

theorem getD_set_ne_frame {α : Type} (out : List α) (d : α) (n : ℕ) (a : α)
    {i : ℕ} (h : n ≠ i) : (out.set n a).getD i d = out.getD i d := by
  rw [List.getD_eq_getElem?_getD, List.getD_eq_getElem?_getD,
    List.getElem?_set_ne h]

theorem getD_append_frame {α : Type} (l l' : List α) (n : ℕ) (d : α)
    (h : n < l.length) : (l ++ l').getD n d = l.getD n d := by
  rw [List.getD_eq_getElem?_getD, List.getD_eq_getElem?_getD,
    List.getElem?_append, if_pos h]

/-- C10: `rand_em_gain` never modifies the array of the caller.  In the heap
model, `_apply_gain` allocates a fresh array (`np.zeros_like`) and the
in-place partial-CIC mutation touches only that fresh array, so after a
successful call the heap cell of the input reference is unchanged, and
the returned reference is distinct from the input reference. -/
theorem rand_em_gain_heap_input_unchanged (o : Oracles) (h : NpHeap)
    (r_in : ℕ) (g mx gc : ℝ) (N : ℕ) (hr : r_in < h.arrays.length) :
    ∀ res ∈ (rand_em_gain_heap o h r_in g mx gc N).toOption,
      res.1.arrays.getD r_in [] = h.arrays.getD r_in [] ∧ res.2 ≠ r_in := by
  intro res hres
  unfold rand_em_gain_heap at hres
  by_cases hg : g < 1
  · rw [if_pos hg] at hres
    simp [Except.toOption] at hres
  · rw [if_neg hg] at hres
    simp only [Except.toOption, Option.mem_def, Option.some.injEq] at hres
    subst hres
    constructor
    · by_cases hgc : gc ≠ 0
      · rw [if_pos hgc]
        rw [getD_set_ne_frame _ _ _ _ (Nat.ne_of_gt hr)]
        exact getD_append_frame _ _ _ _ hr
      · rw [if_neg hgc]
        exact getD_append_frame _ _ _ _ hr
    · exact (ne_of_lt hr).symm

theorem rand_em_gain_heap_input_unchanged_witness :
    0 < (NpHeap.mk [[5]]).arrays.length ∧
    ∀ res ∈ (rand_em_gain_heap oracles0 (NpHeap.mk [[5]]) 0 1 1 0 604).toOption,
      res.1.arrays.getD 0 [] = (NpHeap.mk [[5]]).arrays.getD 0 [] ∧ res.2 ≠ 0 :=
  ⟨by norm_num,
    rand_em_gain_heap_input_unchanged oracles0 (NpHeap.mk [[5]]) 0 1 1 0 604
      (by norm_num)⟩

theorem cumsum_getD (l : List ℝ) (i : ℕ) (h : i < l.length) :
    (cumsum l).getD i 0 = (l.take (i+1)).sum := by
  rw [List.getD_eq_getElem?_getD, cumsum, List.getElem?_map,
    List.getElem?_range h]
  rfl

theorem sum_take_le_sum_take (l : List ℝ) (hl : ∀ x ∈ l, 0 ≤ x) (i j : ℕ)
    (hij : i ≤ j) : (l.take i).sum ≤ (l.take j).sum := by
  have hsplit : l.take j = l.take i ++ (l.drop i).take (j - i) := by
    rw [← List.take_add]
    congr 1
    omega
  rw [hsplit, List.sum_append]
  have hnn : 0 ≤ ((l.drop i).take (j - i)).sum :=
    List.sum_nonneg (fun x hx =>
      hl x (List.mem_of_mem_drop (List.mem_of_mem_take hx)))
  linarith

theorem sum_map_div (l : List ℝ) (s : ℝ) :
    (l.map (fun p => p / s)).sum = l.sum / s := by
  induction l with
  | nil => simp
  | cons p ps ih => simp [ih, add_div]

/-- C7: for every input count above 2 and gain at least 1, on every
nonempty lookup axis, the array returned by the CDF builder `_get_cdf`
is monotonically non-decreasing, its first element is at least 0, and
its last element equals 1 after the normalization. -/
theorem get_cdf_monotone_normalized (n_in em_gain : ℝ) (x : List ℝ)
    (hn : 2 < n_in) (hg : 1 ≤ em_gain) (hx : x ≠ []) :
    (∀ i j, i ≤ j → j < (get_cdf n_in em_gain x).length →
      (get_cdf n_in em_gain x).getD i 0 ≤ (get_cdf n_in em_gain x).getD j 0) ∧
    0 ≤ (get_cdf n_in em_gain x).getD 0 0 ∧
    (get_cdf n_in em_gain x).getD ((get_cdf n_in em_gain x).length - 1) 0 = 1 := by
  simp only [get_cdf]
  set P : List ℝ := (x.map fun t =>
    (n_in - 1) * Real.log t - t / em_gain - n_in * Real.log em_gain
      - Real.log |Real.Gamma n_in|).map Real.exp with hP
  have hPpos : ∀ p ∈ P, 0 < p := by
    intro p hp
    rw [hP] at hp
    obtain ⟨t, _, rfl⟩ := List.mem_map.mp hp
    exact Real.exp_pos _
  have hPne : P ≠ [] := by
    rw [hP]
    simpa using hx
  have hs : 0 < P.sum := List.sum_pos P hPpos hPne
  set l : List ℝ := P.map (fun p => p / P.sum) with hl
  have hlnn : ∀ y ∈ l, 0 ≤ y := by
    intro y hy
    rw [hl] at hy
    obtain ⟨p, hp, rfl⟩ := List.mem_map.mp hy
    exact div_nonneg (le_of_lt (hPpos p hp)) (le_of_lt hs)
  have hlen : (cumsum l).length = l.length := by
    simp [cumsum]
  have hlpos : 0 < l.length := by
    rw [hl, hP]
    simpa using List.length_pos.mpr hx
  refine ⟨?_, ?_, ?_⟩
  · intro i j hij hj
    rw [hlen] at hj
    rw [cumsum_getD l i (lt_of_le_of_lt hij hj), cumsum_getD l j hj]
    exact sum_take_le_sum_take l hlnn (i+1) (j+1) (by omega)
  · rw [cumsum_getD l 0 hlpos]
    exact List.sum_nonneg (fun y hy => hlnn y (List.mem_of_mem_take hy))
  · rw [hlen, cumsum_getD l (l.length - 1) (by omega),
      show l.length - 1 + 1 = l.length by omega, List.take_length,
      hl, sum_map_div]
    exact div_self (ne_of_gt hs)

theorem get_cdf_monotone_normalized_witness :
    (2:ℝ) < 3 ∧ (1:ℝ) ≤ 1 ∧ ([1] : List ℝ) ≠ [] ∧
    ((∀ i j, i ≤ j → j < (get_cdf 3 1 [1]).length →
      (get_cdf 3 1 [1]).getD i 0 ≤ (get_cdf 3 1 [1]).getD j 0) ∧
    0 ≤ (get_cdf 3 1 [1]).getD 0 0 ∧
    (get_cdf 3 1 [1]).getD ((get_cdf 3 1 [1]).length - 1) 0 = 1) :=
  ⟨by norm_num, le_refl 1, List.cons_ne_nil 1 [],
    get_cdf_monotone_normalized 3 1 [1] (by norm_num) (le_refl 1)
      (List.cons_ne_nil 1 [])⟩

theorem one_le_cicBase (em_gain : ℝ) (n_elements : ℕ) (hg : 1 ≤ em_gain) :
    1 ≤ 1 + ratePerElement em_gain n_elements := by
  unfold ratePerElement
  have h := Real.rpow_le_rpow_of_exponent_le hg
    (show (0:ℝ) ≤ 1 / (n_elements : ℝ) by positivity)
  rw [Real.rpow_zero] at h
  linarith

/-- C4 counterexample: at gain 4, register length 2, and drawn uniform 0,
the effective gain the code computes is `(1 + r) ** round(0 * (2-1)) = 1`,
while the formula of the claim `(1+r)^(N-s)` evaluates to 4, and 1 does not lie
in the claimed half-open interval (1, 4]. -/
theorem cic_stage_gain_counterexample :
    cicStageGain 4 2 0 = 1 ∧
    (1 + ratePerElement 4 2) ^ ((2:ℤ) - npRoundInt (0 * ((2:ℝ) - 1))) = 4 ∧
    ¬ (cicStageGain 4 2 0 =
        (1 + ratePerElement 4 2) ^ ((2:ℤ) - npRoundInt (0 * ((2:ℝ) - 1))) ∧
       1 < cicStageGain 4 2 0 ∧ cicStageGain 4 2 0 ≤ 4) := by
  have h0 : npRoundInt (0 * ((2:ℝ) - 1)) = 0 := by
    have : (0 : ℝ) * ((2:ℝ) - 1) = ((0 : ℤ) : ℝ) := by norm_num
    rw [this, npRoundInt_intCast]
  have hbase : 1 + ratePerElement 4 2 = (4:ℝ) ^ ((1:ℝ)/2) := by
    unfold ratePerElement
    norm_num
  have hgain1 : cicStageGain 4 2 0 = 1 := by
    unfold cicStageGain
    rw [show (0 : ℝ) * (((2:ℕ) : ℝ) - 1) = ((0 : ℤ) : ℝ) by norm_num,
      npRoundInt_intCast, zpow_zero]
  have hclaim : (1 + ratePerElement 4 2) ^
      ((2:ℤ) - npRoundInt (0 * ((2:ℝ) - 1))) = 4 := by
    rw [h0, sub_zero, hbase, zpow_two,
      ← Real.rpow_add (by norm_num : (0:ℝ) < 4)]
    norm_num
  refine ⟨hgain1, hclaim, ?_⟩
  rintro ⟨-, hlt, -⟩
  rw [hgain1] at hlt
  exact lt_irrefl 1 hlt

/-- C4 (amended): the effective gain the partial-CIC modeler passes to the
recursive batch gain application equals `(1+r)^s` where
`s = round(u*(N-1))` is the drawn stage count itself (the number of
multiplying stages the charge traverses, uniform over {0, ..., N-1}), not
`(1+r)^(N-s)`; and for gain at least 1 it always lies in the closed
interval [1, g] — it equals 1 when s = 0 and never exceeds
`g^((N-1)/N)`. -/
theorem cic_stage_gain_amended (em_gain : ℝ) (n_elements : ℕ) (u : ℝ)
    (hg : 1 ≤ em_gain) (hN : 1 ≤ n_elements) (h0 : 0 ≤ u) (h1 : u < 1) :
    cicStageGain em_gain n_elements u =
      (1 + ratePerElement em_gain n_elements) ^
        npRoundInt (u * ((n_elements : ℝ) - 1)) ∧
    1 ≤ cicStageGain em_gain n_elements u ∧
    cicStageGain em_gain n_elements u ≤ em_gain := by
  have hb : 1 ≤ 1 + ratePerElement em_gain n_elements :=
    one_le_cicBase em_gain n_elements hg
  have hNR : (1:ℝ) ≤ (n_elements : ℝ) := Nat.one_le_cast.mpr hN
  have hxnn : 0 ≤ u * ((n_elements : ℝ) - 1) :=
    mul_nonneg h0 (by linarith)
  have he0 : 0 ≤ npRoundInt (u * ((n_elements : ℝ) - 1)) :=
    npRoundInt_nonneg hxnn
  have hxle : u * ((n_elements : ℝ) - 1) ≤ (n_elements : ℝ) - 1 :=
    mul_le_of_le_one_left (by linarith) (le_of_lt h1)
  have heN : npRoundInt (u * ((n_elements : ℝ) - 1)) ≤ (n_elements : ℤ) := by
    have h2 := (npRoundInt_bounds (u * ((n_elements : ℝ) - 1))).2
    have h3 : ⌊u * ((n_elements : ℝ) - 1)⌋ ≤ (n_elements : ℤ) - 1 := by
      have : ((n_elements : ℝ) - 1) = (((n_elements : ℤ) - 1 : ℤ) : ℝ) := by
        push_cast
        ring
      rw [← Int.floor_intCast (α := ℝ) ((n_elements : ℤ) - 1)]
      exact Int.floor_le_floor (by rw [← this]; exact hxle)
    omega
  have hbN : (1 + ratePerElement em_gain n_elements) ^
      ((n_elements : ℕ) : ℤ) = em_gain := by
    have hone : 1 + ratePerElement em_gain n_elements =
        em_gain ^ ((1:ℝ) / (n_elements : ℝ)) := by
      unfold ratePerElement
      ring
    rw [zpow_natCast, hone, ← Real.rpow_natCast
      (em_gain ^ ((1:ℝ) / (n_elements : ℝ))) n_elements,
      ← Real.rpow_mul (by linarith : (0:ℝ) ≤ em_gain),
      one_div_mul_cancel (by positivity : (n_elements : ℝ) ≠ 0),
      Real.rpow_one]
  refine ⟨rfl, ?_, ?_⟩
  · exact one_le_zpow₀ hb he0
  · calc cicStageGain em_gain n_elements u
        ≤ (1 + ratePerElement em_gain n_elements) ^ ((n_elements : ℕ) : ℤ) :=
          zpow_le_zpow_right₀ hb heN
      _ = em_gain := hbN

theorem cic_stage_gain_amended_witness :
    (1:ℝ) ≤ 1 ∧ 1 ≤ 1 ∧ (0:ℝ) ≤ 0 ∧ (0:ℝ) < 1 ∧
    (cicStageGain 1 1 0 =
      (1 + ratePerElement 1 1) ^ npRoundInt (0 * (((1:ℕ) : ℝ) - 1)) ∧
    1 ≤ cicStageGain 1 1 0 ∧ cicStageGain 1 1 0 ≤ 1) :=
  ⟨le_refl 1, le_refl 1, le_refl 0, by norm_num,
    cic_stage_gain_amended 1 1 0 (le_refl 1) (le_refl 1) (le_refl 0)
      (by norm_num)⟩

theorem npRound_three : npRound (3:ℝ) = 3 := by
  have h := npRound_intCast 3
  norm_num at h
  exact h

/-- C2: the claim states that for every gain at least 1 and max-output
bound, every element returned by `_apply_gain` is at least 0 and at most
the bound, in particular on the n = 1 closed-form branch.  The n = 1 and
n = 2 branches never consult `max_out`, so the bound fails: with gain 1,
bound 1, input array [1], and uniform draw 1 - exp(-3) (a valid draw in
[0,1)), the returned array is [3], and 3 exceeds the bound 1 — contradicting
the docstring of `rand_em_gain`, which calls `max_out` the maximum allowed
output. -/
theorem apply_gain_exceeds_max_out :
    (0:ℝ) ≤ 1 - Real.exp (-3) ∧ 1 - Real.exp (-3) < 1 ∧
    apply_gain (fun _ => 0) (fun _ _ => 1 - Real.exp (-3)) [1] 1 1 = [3] ∧
    ¬ ((3:ℝ) ≤ 1) := by
  have hexp1 : Real.exp (-3) < 1 := by
    calc Real.exp (-3) < Real.exp 0 := Real.exp_lt_exp.mpr (by norm_num)
      _ = 1 := Real.exp_zero
  have hexp0 : 0 < Real.exp (-3) := Real.exp_pos _
  have hsample : sampleOne (fun _ => (0:ℝ)) 1 1 1 (1 - Real.exp (-3)) = 3 := by
    simp only [sampleOne]
    rw [if_true,
      show (1:ℝ) - (1 - Real.exp (-3)) = Real.exp (-3) by ring, Real.log_exp,
      show (-1:ℝ) * (-3) = (3:ℝ) by norm_num, npRound_three]
  have hfilter : (([1] : List ℝ).filter (fun v => decide (0 < v))) = [1] := by
    rw [show ([1] : List ℝ) = 1 :: [] from rfl, List.filter_cons_of_pos,
      List.filter_nil]
    simp only [decide_eq_true_eq]
    norm_num
  have hwhere : whereEq [1] 1 = [0] := by
    unfold whereEq
    rw [show List.range ([1] : List ℝ).length = [0] from rfl, List.filter_cons_of_pos,
      List.filter_nil]
    simp only [decide_eq_true_eq]
    rfl
  refine ⟨by linarith, by linarith, ?_, by norm_num⟩
  simp only [apply_gain, npUnique, sortAsc, insertSorted, dedupSorted, hfilter,
    List.map_cons, List.map_nil, applyGainLoop, hwhere, List.length_cons,
    List.length_nil, List.range_succ, List.range_zero, List.nil_append,
    rand_pdf, hsample, scatter, List.zip_cons_cons, List.zip_nil_right,
    List.foldl_cons, List.foldl_nil]
  rfl

end

end EmccdDetect
